import Mathlib

/-!
Verification of the Colliberator color library core.

Floating point (`f32`) arithmetic is embedded as exact rational arithmetic;
machine-level operations that matter to the claims (Rust `%` on floats,
`f32::round`, the saturating `as u8` cast) are modelled explicitly below.
-/

namespace Colliberator

/-- Truncation of a rational toward zero, as Rust float-to-int casts and the
float remainder operator use it. -/
def ratTrunc (q : ℚ) : ℤ := if 0 ≤ q then ⌊q⌋ else ⌈q⌉

/-- Rust remainder operator on floats: `x % y = x - y * trunc (x / y)`,
keeping the sign of the dividend. -/
def rustRem (x y : ℚ) : ℚ := x - y * (ratTrunc (x / y) : ℚ)

/-- Rust `f32::round`: round half away from zero. -/
def rustRound (q : ℚ) : ℤ := if 0 ≤ q then ⌊q + 1/2⌋ else ⌈q - 1/2⌉

/-- Rust saturating cast of a (non-NaN) float to `u8`: truncate toward zero
and clamp into `[0, 255]`. -/
def u8cast (q : ℚ) : ℕ := if q < 0 then 0 else min 255 (Int.toNat ⌊q⌋)

/-- Literal translation of `Channel::to_range` (src/channel.rs lines 42-46):
clamp a value into `[zero, max]` by two comparisons. -/
def to_range (zero maxv x : ℚ) : ℚ :=
  if x > maxv then maxv else if x < zero then zero else x

/-- The clamp of an `f32` channel value into its range `[0, 1]`. -/
def clamp01 (x : ℚ) : ℚ := to_range 0 1 x

/-- Literal translation of `Angle::wrap` (src/channel/angle.rs lines 35-44)
with a zero angle of `0`: remainder by the full angle, then map a negative
remainder back into range. -/
def wrapAngle (full x : ℚ) : ℚ :=
  if rustRem x full < 0 then rustRem x full + full else rustRem x full

/-- Wrap of a degree angle into `[0, 360)`. -/
def wrapDeg (x : ℚ) : ℚ := wrapAngle 360 x

/-- A channel representation: its maximal value, whether it is stored as an
integer (so conversions into it round), and whether it is an angle type
(whose clamp wraps instead of saturating, per the `Channel` implementation
in src/channel/angle.rs lines 107-122). -/
structure Ch where
  maxv : ℚ
  intRep : Bool
  wraps : Bool
deriving DecidableEq

/-- The clamp of a channel value: angle channels wrap, all others saturate
into `[ch_zero, ch_max]` per `Channel::to_range`. -/
def Ch.clamp (c : Ch) (x : ℚ) : ℚ :=
  if c.wraps then wrapAngle c.maxv x else to_range 0 c.maxv x

/-- Modelled from the spec: the `Channel::conv` default method of the trait
version used by rgb.rs/hsv.rs (the variant with `clamp` and the `INTEGER`
flag), which is not present under src/ (src/channel.rs is a stale variant
that rounds unconditionally, contradicting the repository test
`angle_conversion`). Per spec section 4.1 the clamped value is rescaled
linearly by the ratio of the channel maxima and rounded when the target is
an integer representation. -/
def conv (src tgt : Ch) (x : ℚ) : ℚ :=
  if tgt.intRep then (rustRound (src.clamp x / src.maxv * tgt.maxv) : ℚ)
  else src.clamp x / src.maxv * tgt.maxv

/-- The `u8` channel: range `[0, 255]`. -/
def u8Ch : Ch := ⟨255, true, false⟩

/-- The `u16` channel: range `[0, 65535]`. -/
def u16Ch : Ch := ⟨65535, true, false⟩

/-- The `f32` channel: range `[0, 1]`. -/
def f32Ch : Ch := ⟨1, false, false⟩

/-- The `Deg<f32>` hue channel: full angle `360`, wrapping clamp. -/
def degCh : Ch := ⟨360, false, true⟩

/-- An `HSVColor<Deg<f32>, f32, S>` value: hue in degrees, saturation and
value as `f32` fractions (src/hsv.rs lines 12-18). -/
structure HSV where
  h : ℚ
  s : ℚ
  v : ℚ
deriving DecidableEq

/-- Literal translation of `HSVColor::normalize` (src/hsv.rs lines 96-115):
zero value gives the default black, zero saturation zeroes the hue, and
otherwise each channel is clamped — the clamp of the hue channel being the
angle wrap per src/channel/angle.rs lines 119-121. -/
def HSV.normalize (c : HSV) : HSV :=
  if c.v = 0 then ⟨0, 0, 0⟩
  else if c.s = 0 then ⟨0, 0, clamp01 c.v⟩
  else ⟨wrapDeg c.h, clamp01 c.s, clamp01 c.v⟩

/-- Literal translation of `HSVColor::new` (src/hsv.rs lines 40-48):
construct and immediately normalize. -/
def HSV.new (h s v : ℚ) : HSV := HSV.normalize ⟨h, s, v⟩

/-- The six-way sector match of `HSVColor::rgb` (src/hsv.rs lines 64-72);
`none` models the `panic!("Invalid hue value")` arm. -/
def sectorTriple (k : ℕ) (mc xc : ℚ) : Option (ℚ × ℚ × ℚ) :=
  match k with
  | 0 => some (mc, xc, 0)
  | 1 => some (xc, mc, 0)
  | 2 => some (0, mc, xc)
  | 3 => some (0, xc, mc)
  | 4 => some (xc, 0, mc)
  | 5 => some (mc, 0, xc)
  | 6 => some (mc, 0, xc)
  | _ => none

/-- The second-largest component `xc = mc * (1 - |h % 2 - 1|)` of
`HSVColor::rgb` (src/hsv.rs line 61). -/
def xcVal (h mc : ℚ) : ℚ := mc * (1 - |rustRem h 2 - 1|)

/-- Literal translation of `HSVColor::rgb` (src/hsv.rs lines 55-75): the hue
is converted (wrapped) into degrees and divided by 60, the chroma `mc = s*v`
and `min = v - mc` are formed, the sector is the saturating `u8` cast of the
scaled hue, and the final tuple goes through `RGBColor::new`, which clamps
each channel. -/
def HSV.rgb (c : HSV) : Option (ℚ × ℚ × ℚ) :=
  Option.map
    (fun p => (clamp01 (p.1 + (c.v - c.s * c.v)),
               clamp01 (p.2.1 + (c.v - c.s * c.v)),
               clamp01 (p.2.2 + (c.v - c.s * c.v))))
    (sectorTriple (u8cast (conv degCh degCh c.h / 60)) (c.s * c.v)
      (xcVal (conv degCh degCh c.h / 60) (c.s * c.v)))

/-- An `RGBColor<f32, S>` value (src/rgb.rs lines 12-18). -/
structure RGB where
  r : ℚ
  g : ℚ
  b : ℚ
deriving DecidableEq

/-- Literal translation of `RGBColor::new` (src/rgb.rs lines 49-57): each
channel is clamped into range. -/
def RGB.new (r g b : ℚ) : RGB := ⟨clamp01 r, clamp01 g, clamp01 b⟩

/-- Range test `is_normal` of `RGBColor` (src/rgb.rs lines 72-75). -/
def RGB.is_normal (c : RGB) : Prop :=
  (0 ≤ c.r ∧ c.r ≤ 1) ∧ (0 ≤ c.g ∧ c.g ≤ 1) ∧ (0 ≤ c.b ∧ c.b ≤ 1)

/-- The channel maximum `max = r.max(g).max(b)` of `RGBColor::hsv`
(src/rgb.rs line 142). -/
def maxRGB (r g b : ℚ) : ℚ := max (max r g) b

/-- The channel minimum `min = r.min(g).min(b)` of `RGBColor::hsv`
(src/rgb.rs line 143). -/
def minRGB (r g b : ℚ) : ℚ := min (min r g) b

/-- The saturation of `RGBColor::hsv` (src/rgb.rs line 147):
`0` if `max == 0`, else `delta / max`. -/
def satFormula (r g b : ℚ) : ℚ :=
  if maxRGB r g b = 0 then 0 else (maxRGB r g b - minRGB r g b) / maxRGB r g b

/-- The hue of `RGBColor::hsv` (src/rgb.rs lines 148-157): the six-way
piecewise formula keyed on which channel equals the maximum, ties broken in
the order r, g, b. -/
def hueFormula (r g b : ℚ) : ℚ :=
  60 * (if maxRGB r g b - minRGB r g b = 0 then 0
    else if maxRGB r g b = r then
      rustRem ((g - b) / (maxRGB r g b - minRGB r g b)) 6
    else if maxRGB r g b = g then (b - r) / (maxRGB r g b - minRGB r g b) + 2
    else (r - g) / (maxRGB r g b - minRGB r g b) + 4)

/-- Literal translation of `RGBColor::hsv` (src/rgb.rs lines 139-160): the
channels are first converted to `f32` fractions, then hue, saturation and
value are computed and passed through channel conversion into
`HSVColor::new`, which normalizes. -/
def RGB.hsv (c : RGB) : HSV :=
  HSV.new
    (conv degCh degCh (hueFormula (conv f32Ch f32Ch c.r) (conv f32Ch f32Ch c.g)
      (conv f32Ch f32Ch c.b)))
    (conv f32Ch f32Ch (satFormula (conv f32Ch f32Ch c.r) (conv f32Ch f32Ch c.g)
      (conv f32Ch f32Ch c.b)))
    (conv f32Ch f32Ch (maxRGB (conv f32Ch f32Ch c.r) (conv f32Ch f32Ch c.g)
      (conv f32Ch f32Ch c.b)))

/-- The full `u8` pipeline of the round-trip property (mirroring the repository test
`rgb_to_hsv`): an 8-bit triple is channel-converted to `f32`, turned
into HSV by `RGBColor::hsv`, normalized, converted back by `HSVColor::rgb`
and channel-converted back to `u8`. -/
def srgb24_roundtrip (R G B : ℕ) : Option (ℚ × ℚ × ℚ) :=
  Option.map (fun p => (conv f32Ch u8Ch p.1, conv f32Ch u8Ch p.2.1,
      conv f32Ch u8Ch p.2.2))
    (HSV.rgb ((RGB.hsv ⟨conv u8Ch f32Ch R, conv u8Ch f32Ch G,
      conv u8Ch f32Ch B⟩).normalize))

/-- An integer channel with the given maximum (`u8` is `intCh 255`,
`u16` is `intCh 65535`, and so on). -/
def intCh (n : ℕ) : Ch := ⟨n, true, false⟩

/-- An `f32` value for the claims where non-finite inputs matter: NaN, the
two infinities, or a finite value (modelled as an exact rational). -/
inductive F32 where
  | nan : F32
  | pinf : F32
  | ninf : F32
  | fin : ℚ → F32
deriving DecidableEq

/-- IEEE `<` on `f32`: NaN is incomparable to everything. -/
def F32.lt : F32 → F32 → Bool
  | F32.nan, _ => false
  | _, F32.nan => false
  | F32.ninf, F32.ninf => false
  | F32.ninf, _ => true
  | _, F32.ninf => false
  | F32.pinf, _ => false
  | _, F32.pinf => true
  | F32.fin a, F32.fin b => decide (a < b)

/-- IEEE `<=` on `f32`: NaN is incomparable to everything. -/
def F32.le : F32 → F32 → Bool
  | F32.nan, _ => false
  | _, F32.nan => false
  | F32.ninf, _ => true
  | _, F32.ninf => false
  | _, F32.pinf => true
  | F32.pinf, _ => false
  | F32.fin a, F32.fin b => decide (a ≤ b)

/-- The method `Channel::to_range` for `f32` (src/channel.rs lines 42-46) on the
extended values: `if self > max { max } else if self < zero { zero } else
{ self }` with the IEEE comparisons, so a NaN fails both comparisons and is
returned unchanged. -/
def F32.to_range (x : F32) : F32 :=
  if F32.lt (F32.fin 1) x then F32.fin 1
  else if F32.lt x (F32.fin 0) then F32.fin 0
  else x

/-- The method `Channel::in_range` for `f32` (src/channel.rs lines 37-39). -/
def F32.in_range (x : F32) : Bool :=
  F32.le x (F32.fin 1) && F32.le (F32.fin 0) x

/-- An `RGBColor<f32, S>` over extended values. -/
structure RGBf where
  r : F32
  g : F32
  b : F32
deriving DecidableEq

/-- The constructor `RGBColor::new` (src/rgb.rs lines 49-57): clamp every channel. -/
def RGBf.new (r g b : F32) : RGBf := ⟨r.to_range, g.to_range, b.to_range⟩

/-- The method `RGBColor::is_normal` (src/rgb.rs lines 72-75). -/
def RGBf.is_normal (c : RGBf) : Bool :=
  c.r.in_range && c.g.in_range && c.b.in_range

/-- An `Alpha<RGBColor<f32, S>, f32>` over extended values. -/
structure AlphaRGBf where
  color : RGBf
  alpha : F32
deriving DecidableEq

/-- The constructor `Alpha::new` via the tuple conversion (src/alpha.rs lines 23-25 and
117-121): the color goes through `RGBColor::new`, the alpha channel through
`to_range`. -/
def AlphaRGBf.new (r g b a : F32) : AlphaRGBf := ⟨RGBf.new r g b, a.to_range⟩

/-- Rust `u8::make_ascii_lowercase` on a byte. -/
def asciiLower (b : ℕ) : ℕ := if 65 ≤ b ∧ b ≤ 90 then b + 32 else b

/-- The value of one hexadecimal digit byte as `char::to_digit(16)` accepts
it: `0-9`, `a-f` or `A-F`. -/
def hexDigitVal (b : ℕ) : Option ℕ :=
  if 48 ≤ b ∧ b ≤ 57 then some (b - 48)
  else if 97 ≤ b ∧ b ≤ 102 then some (b - 87)
  else if 65 ≤ b ∧ b ≤ 70 then some (b - 55)
  else none

/-- Rust `u8::from_str_radix(s, 16)` on a two-byte string: an optional leading
sign is accepted (`+d` parses as `d`, `-0` as `0`, any other `-d` overflows
below zero), otherwise both bytes must be hex digits. -/
def fromStrRadix16pair (b1 b2 : ℕ) : Option ℕ :=
  if b1 = 43 then hexDigitVal b2
  else if b1 = 45 then
    match hexDigitVal b2 with
    | some 0 => some 0
    | _ => none
  else
    match hexDigitVal b1, hexDigitVal b2 with
    | some d1, some d2 => some (16 * d1 + d2)
    | _, _ => none

/-- Three channel parses combined as the `?` operator does. -/
def tripleOpt (o1 o2 o3 : Option ℕ) : Option (ℕ × ℕ × ℕ) :=
  match o1, o2, o3 with
  | some x, some y, some z => some (x, y, z)
  | _, _, _ => none

/-- Literal translation of `RGBColor::<u8, S>::from_hex` (src/rgb.rs lines
112-135) at the byte level: every byte is lowercased; when the byte length
is at least 6 the first six bytes are parsed as three two-byte chunks, and
otherwise the first three bytes are each doubled and parsed; any parse
failure or exhausted iterator yields `None`. -/
def from_hex (bs : List ℕ) : Option (ℕ × ℕ × ℕ) :=
  if 6 ≤ bs.length then
    match bs.map asciiLower with
    | a :: b :: c :: d :: e :: f :: _ =>
      tripleOpt (fromStrRadix16pair a b) (fromStrRadix16pair c d)
        (fromStrRadix16pair e f)
    | _ => none
  else
    match bs.map asciiLower with
    | a :: b :: c :: _ =>
      tripleOpt (fromStrRadix16pair a a) (fromStrRadix16pair b b)
        (fromStrRadix16pair c c)
    | _ => none

/-- A byte is a hexadecimal digit (either case). -/
def isHexDigit (b : ℕ) : Prop :=
  (48 ≤ b ∧ b ≤ 57) ∨ (97 ≤ b ∧ b ≤ 102) ∨ (65 ≤ b ∧ b ≤ 70)

instance (b : ℕ) : Decidable (isHexDigit b) := by
  unfold isHexDigit
  infer_instance

/-- A two-byte chunk that `u8::from_str_radix(-, 16)` accepts. -/
def chunkOk (b1 b2 : ℕ) : Prop :=
  (isHexDigit b1 ∧ isHexDigit b2) ∨ (b1 = 43 ∧ isHexDigit b2) ∨
    (b1 = 45 ∧ b2 = 48)

/-- The inputs `from_hex` accepts: at byte length 6 or more, the first six
bytes form three acceptable chunks (the remainder is ignored); at length
3 to 5, the first three bytes are hex digits; shorter inputs fail. -/
def from_hexAccepts (bs : List ℕ) : Prop :=
  if 6 ≤ bs.length then
    match bs with
    | a :: b :: c :: d :: e :: f :: _ => chunkOk a b ∧ chunkOk c d ∧ chunkOk e f
    | _ => False
  else
    match bs with
    | a :: b :: c :: _ => isHexDigit a ∧ isHexDigit b ∧ isHexDigit c
    | _ => False

/-- The basic colors (src/base.rs lines 5-17). -/
inductive BaseColor where
  | black
  | grey
  | white
  | red
  | yellow
  | green
  | cyan
  | blue
  | magenta
deriving DecidableEq, Repr

/-- The five non-red reference hues of `shades` (src/lib.rs lines 75-80). -/
def COLOR_HUES : List (ℚ × BaseColor) :=
  [(60, BaseColor.yellow), (120, BaseColor.green), (180, BaseColor.cyan),
    (240, BaseColor.blue), (300, BaseColor.magenta)]

/-- The margin `HUE_MARGIN = 60.0 * 0.75` (src/lib.rs line 86). -/
def HUE_MARGIN : ℚ := 60 * (3/4)

/-- The threshold `GREYSCALE_SATURATION = 0.05` (src/lib.rs line 92). -/
def GREYSCALE_SATURATION : ℚ := 1/20

/-- The hue-membership stage of `shades` (src/lib.rs lines 117-137): when
the saturation exceeds `GREYSCALE_SATURATION`, the red special case pushes
`1 - (if h <= margin { h } else { h - 360 }) / HUE_MARGIN` whenever the hue
is within the margin of 0 across the wrap, and each reference hue within
the margin pushes `1 - dist / HUE_MARGIN`, in source order. -/
def shadesHuePart (h s : ℚ) : List (BaseColor × ℚ) :=
  if s > GREYSCALE_SATURATION then
    (if h ≥ 360 - HUE_MARGIN ∨ h ≤ 0 + HUE_MARGIN then
      [(BaseColor.red, 1 - (if h ≤ 0 + HUE_MARGIN then h else h - 360) / HUE_MARGIN)]
    else [])
    ++ COLOR_HUES.filterMap (fun p =>
      if |h - p.1| ≤ HUE_MARGIN then some (p.2, 1 - |h - p.1| / HUE_MARGIN)
      else none)
  else []

theorem ratTrunc_eq_floor (q : ℚ) (h : 0 ≤ q) : ratTrunc q = ⌊q⌋ := by
  simp [ratTrunc, h]

theorem ratTrunc_eq_of_bounds (q : ℚ) (k : ℤ) (hk : 0 ≤ k)
    (h1 : (k : ℚ) ≤ q) (h2 : q < (k : ℚ) + 1) : ratTrunc q = k := by
  have hq : 0 ≤ q := le_trans (by exact_mod_cast hk) h1
  rw [ratTrunc_eq_floor q hq]
  exact Int.floor_eq_iff.mpr ⟨h1, h2⟩

theorem ratTrunc_neg_small (q : ℚ) (h1 : -1 < q) (h2 : q < 0) :
    ratTrunc q = 0 := by
  have hq : ¬ (0 ≤ q) := not_le.mpr h2
  simp only [ratTrunc, hq, if_false]
  rw [Int.ceil_eq_iff]
  constructor
  · push_cast; linarith
  · push_cast; linarith

theorem rustRem_eq_self (x y : ℚ) (hy : 0 < y) (h1 : -y < x) (h2 : x < y) :
    rustRem x y = x := by
  rcases le_or_lt 0 x with hx | hx
  · have h0 : ratTrunc (x / y) = 0 := by
      apply ratTrunc_eq_of_bounds _ 0 le_rfl
      · positivity
      · rw [show ((0 : ℤ) : ℚ) + 1 = 1 by norm_num, div_lt_one hy]; exact h2
    simp [rustRem, h0]
  · have h0 : ratTrunc (x / y) = 0 := by
      apply ratTrunc_neg_small
      · rw [lt_div_iff₀ hy]; linarith
      · exact div_neg_of_neg_of_pos hx hy
    simp [rustRem, h0]

theorem rustRem_shift (x y : ℚ) (k : ℤ) (hk : 0 ≤ k) (hy : 0 < y)
    (h1 : (k : ℚ) * y ≤ x) (h2 : x < ((k : ℚ) + 1) * y) :
    rustRem x y = x - (k : ℚ) * y := by
  have h0 : ratTrunc (x / y) = k := by
    apply ratTrunc_eq_of_bounds _ k hk
    · rw [le_div_iff hy]; linarith
    · rw [div_lt_iff hy]; linarith
  simp [rustRem, h0]; ring

theorem wrapDeg_eq_self (x : ℚ) (h1 : 0 ≤ x) (h2 : x < 360) :
    wrapDeg x = x := by
  have hr : rustRem x 360 = x := rustRem_eq_self x 360 (by norm_num)
    (by linarith) h2
  simp [wrapDeg, wrapAngle, hr, not_lt.mpr h1]

theorem wrapDeg_neg_eq (x : ℚ) (h1 : -360 < x) (h2 : x < 0) :
    wrapDeg x = x + 360 := by
  have hr : rustRem x 360 = x := rustRem_eq_self x 360 (by norm_num) h1
    (by linarith)
  simp [wrapDeg, wrapAngle, hr, h2]

theorem rustRem_nonneg_lt (x y : ℚ) (hy : 0 < y) (hx : 0 ≤ x) :
    0 ≤ rustRem x y ∧ rustRem x y < y := by
  have hfl : ratTrunc (x / y) = ⌊x / y⌋ := ratTrunc_eq_floor _ (by positivity)
  constructor
  · have := Int.floor_le (x / y)
    rw [rustRem, hfl]
    have h1 : (⌊x / y⌋ : ℚ) * y ≤ x := by
      rw [← le_div_iff hy] at *; exact this
    linarith
  · have := Int.lt_floor_add_one (x / y)
    rw [rustRem, hfl]
    have h1 : x < ((⌊x / y⌋ : ℚ) + 1) * y := by
      rw [← div_lt_iff hy]; push_cast; linarith
    linarith

theorem wrapDeg_bounds (x : ℚ) : 0 ≤ wrapDeg x ∧ wrapDeg x < 360 := by
  rcases le_or_lt 0 x with hx | hx
  · have h := rustRem_nonneg_lt x 360 (by norm_num) hx
    simp only [wrapDeg, wrapAngle, not_lt.mpr h.1, if_false]
    exact h
  · have hfl : x / 360 < 0 := div_neg_of_neg_of_pos hx (by norm_num)
    have hceil : rustRem x 360 ≤ 0 ∧ -360 < rustRem x 360 := by
      have hnn : ¬ (0 ≤ x / 360) := not_le.mpr hfl
      have hc1 : (x / 360 : ℚ) ≤ (⌈x / 360⌉ : ℚ) := Int.le_ceil _
      have hc2 : (⌈x / 360⌉ : ℚ) < x / 360 + 1 := Int.ceil_lt_add_one _
      simp only [rustRem, ratTrunc, hnn, if_false]
      constructor
      · nlinarith
      · nlinarith
    rcases lt_or_eq_of_le hceil.1 with h0 | h0
    · simp only [wrapDeg, wrapAngle, h0, if_true]
      constructor <;> linarith [hceil.2]
    · simp only [wrapDeg, wrapAngle, h0]
      norm_num

theorem to_range_eq_self (zero maxv x : ℚ) (h1 : zero ≤ x) (h2 : x ≤ maxv) :
    to_range zero maxv x = x := by
  simp [to_range, not_lt.mpr h1, not_lt.mpr h2]

theorem clamp01_eq_self (x : ℚ) (h1 : 0 ≤ x) (h2 : x ≤ 1) :
    clamp01 x = x := to_range_eq_self 0 1 x h1 h2

theorem clamp01_bounds (x : ℚ) : 0 ≤ clamp01 x ∧ clamp01 x ≤ 1 := by
  unfold clamp01 to_range
  split_ifs with h1 h2
  · constructor <;> norm_num
  · constructor <;> norm_num
  · exact ⟨not_lt.mp h2, not_lt.mp h1⟩

theorem rustRound_intCast (n : ℤ) : rustRound (n : ℚ) = n := by
  rcases le_or_lt 0 (n : ℚ) with h | h
  · rw [rustRound, if_pos h]
    have : ⌊(n : ℚ) + 1/2⌋ = n := by
      rw [Int.floor_eq_iff]
      constructor
      · linarith
      · push_cast; linarith
    exact this
  · rw [rustRound, if_neg (not_le.mpr h)]
    have : ⌈(n : ℚ) - 1/2⌉ = n := by
      rw [Int.ceil_eq_iff]
      constructor
      · push_cast; linarith
      · linarith
    exact this

theorem rustRound_natCast (n : ℕ) : rustRound ((n : ℚ)) = (n : ℤ) := by
  rw [show ((n : ℚ)) = (((n : ℤ)) : ℚ) from by push_cast; ring]
  exact rustRound_intCast _

theorem u8cast_eq (q : ℚ) (k : ℕ) (hk : k ≤ 255) (h1 : (k : ℚ) ≤ q)
    (h2 : q < (k : ℚ) + 1) : u8cast q = k := by
  have hq : ¬ (q < 0) := not_lt.mpr (le_trans (by positivity) h1)
  have hfl : ⌊q⌋ = (k : ℤ) := Int.floor_eq_iff.mpr ⟨by exact_mod_cast h1, by
    push_cast; exact h2⟩
  rw [u8cast, if_neg hq, hfl]
  omega

theorem conv_f32_f32 (x : ℚ) : conv f32Ch f32Ch x = clamp01 x := by
  simp [conv, f32Ch, Ch.clamp, clamp01]

theorem conv_deg_deg (x : ℚ) : conv degCh degCh x = wrapDeg x := by
  simp only [conv, degCh, Ch.clamp, wrapDeg]
  norm_num

theorem conv_u8_f32 (n : ℕ) (h : n ≤ 255) : conv u8Ch f32Ch (n : ℚ) = n / 255 := by
  simp only [conv, u8Ch, f32Ch, Ch.clamp]
  rw [to_range_eq_self 0 255 n (by positivity) (by exact_mod_cast h)]
  norm_num

theorem conv_f32_u8 (x : ℚ) :
    conv f32Ch u8Ch x = (rustRound (clamp01 x * 255) : ℚ) := by
  simp only [conv, f32Ch, u8Ch, Ch.clamp, clamp01]
  norm_num

theorem clamp01_pos (x : ℚ) (h : 0 < x) : 0 < clamp01 x := by
  unfold clamp01 to_range
  split_ifs with h1 h2
  · norm_num
  · linarith
  · exact h

/-- C2 counterexample: `HSVColor::new(0.0, 2.0, 0.5)` returns normally with
the out-of-range saturation silently clamped to `1.0` - the constructor
neither panics nor returns an error, contradicting the claim that
out-of-domain saturation or value is rejected. -/
theorem hsv_new_silently_clamps_cex : HSV.new 0 2 (1/2) = ⟨0, 1, 1/2⟩ := by
  have h1 : wrapDeg (0 : ℚ) = 0 := wrapDeg_eq_self 0 le_rfl (by norm_num)
  norm_num [HSV.new, HSV.normalize, clamp01, to_range, h1]

/-- C2 (amended): `HSVColor::new` is total and silently clamps: the
saturation and value of the result always lie in `[ch_zero, ch_max]`, and
whenever neither degenerate branch of `normalize` fires the result is
exactly the component-wise clamp (hue wrapped, saturation and value
saturated). -/
theorem hsv_new_clamps (h s v : ℚ) :
    (0 ≤ (HSV.new h s v).s ∧ (HSV.new h s v).s ≤ 1 ∧
      0 ≤ (HSV.new h s v).v ∧ (HSV.new h s v).v ≤ 1) ∧
    (v ≠ 0 → s ≠ 0 → HSV.new h s v = ⟨wrapDeg h, clamp01 s, clamp01 v⟩) := by
  constructor
  · unfold HSV.new HSV.normalize
    split_ifs with hv hs
    · exact ⟨le_rfl, by norm_num, le_rfl, by norm_num⟩
    · exact ⟨le_rfl, by norm_num, (clamp01_bounds v).1, (clamp01_bounds v).2⟩
    · exact ⟨(clamp01_bounds s).1, (clamp01_bounds s).2,
        (clamp01_bounds v).1, (clamp01_bounds v).2⟩
  · intro hv hs
    unfold HSV.new HSV.normalize
    simp [hv, hs]

/-- C2 witness: the amended theorem applied at `(10, 2, 1/2)`. -/
theorem hsv_new_clamps_witness :
    (0 ≤ (HSV.new 10 2 (1/2)).s ∧ (HSV.new 10 2 (1/2)).s ≤ 1 ∧
      0 ≤ (HSV.new 10 2 (1/2)).v ∧ (HSV.new 10 2 (1/2)).v ≤ 1) ∧
    HSV.new 10 2 (1/2) = ⟨wrapDeg 10, clamp01 2, clamp01 (1/2)⟩ :=
  ⟨(hsv_new_clamps 10 2 (1/2)).1,
    (hsv_new_clamps 10 2 (1/2)).2 (by norm_num) (by norm_num)⟩

/-- C3 counterexample: normalization does not enforce the degeneracy
invariant on out-of-range inputs. `normalize(-90deg, 2, -5)` yields
`(270deg, 1, 0)`, whose value channel is zero while hue and saturation are
not, and `normalize(90deg, -1, 1/2)` yields `(90deg, 0, 1/2)`, whose
saturation is zero while the hue is not. -/
theorem hsv_normalize_degeneracy_cex :
    ((HSV.normalize ⟨-90, 2, -5⟩).v = 0 ∧ (HSV.normalize ⟨-90, 2, -5⟩).s ≠ 0) ∧
    ((HSV.normalize ⟨90, -1, 1/2⟩).s = 0 ∧
      (HSV.normalize ⟨90, -1, 1/2⟩).h ≠ 0) := by
  have h1 : wrapDeg (-90 : ℚ) = 270 := by
    rw [wrapDeg_neg_eq (-90) (by norm_num) (by norm_num)]
    norm_num
  have h2 : wrapDeg (90 : ℚ) = 90 :=
    wrapDeg_eq_self 90 (by norm_num) (by norm_num)
  norm_num [HSV.normalize, clamp01, to_range, h1, h2]

/-- C3 (amended): for every HSV color whose saturation and value channels
are nonnegative (in particular every in-range input), the result of
`normalize` satisfies the degeneracy invariant: a zero value channel forces
zero hue and saturation, and a zero saturation channel forces zero hue. -/
theorem hsv_normalize_degeneracy (h s v : ℚ) (hs : 0 ≤ s) (hv : 0 ≤ v) :
    ((HSV.normalize ⟨h, s, v⟩).v = 0 →
      (HSV.normalize ⟨h, s, v⟩).h = 0 ∧ (HSV.normalize ⟨h, s, v⟩).s = 0) ∧
    ((HSV.normalize ⟨h, s, v⟩).s = 0 → (HSV.normalize ⟨h, s, v⟩).h = 0) := by
  unfold HSV.normalize
  split_ifs with hv0 hs0
  · exact ⟨fun _ => ⟨rfl, rfl⟩, fun _ => rfl⟩
  · refine ⟨fun hc => absurd hc ?_, fun _ => rfl⟩
    have : 0 < v := lt_of_le_of_ne hv (Ne.symm hv0)
    exact ne_of_gt (clamp01_pos v this)
  · have hsp : 0 < s := lt_of_le_of_ne hs (Ne.symm hs0)
    have hvp : 0 < v := lt_of_le_of_ne hv (Ne.symm hv0)
    refine ⟨fun hc => absurd hc ?_, fun hc => absurd hc ?_⟩
    · exact ne_of_gt (clamp01_pos v hvp)
    · exact ne_of_gt (clamp01_pos s hsp)

/-- C3 witness: the amended theorem applied at `(50, 1/4, 0)`. -/
theorem hsv_normalize_degeneracy_witness :
    ((HSV.normalize ⟨50, 1/4, 0⟩).v = 0 →
      (HSV.normalize ⟨50, 1/4, 0⟩).h = 0 ∧ (HSV.normalize ⟨50, 1/4, 0⟩).s = 0) ∧
    ((HSV.normalize ⟨50, 1/4, 0⟩).s = 0 → (HSV.normalize ⟨50, 1/4, 0⟩).h = 0) :=
  hsv_normalize_degeneracy 50 (1/4) 0 (by norm_num) (by norm_num)

/-- C10 counterexample: a hue of 420 degrees does not reach the panic
branch of `HSVColor::rgb` - the hue conversion wraps 420 to 60 degrees
before the sector is selected, so the call returns normally (yellow). -/
theorem hsv_rgb_420_no_panic_cex : HSV.rgb ⟨420, 1, 1⟩ = some (1, 1, 0) := by
  have hr : rustRem 420 360 = 60 := by
    have h := rustRem_shift 420 360 1 (by norm_num) (by norm_num) (by norm_num)
      (by norm_num)
    norm_num at h
    exact h
  have h1 : wrapDeg (420 : ℚ) = 60 := by
    rw [wrapDeg, wrapAngle, hr]
    norm_num
  have h2 : u8cast ((60 : ℚ) / 60) = 1 := by
    norm_num [u8cast]
  have h3 : rustRem ((60 : ℚ) / 60) 2 = 1 := by
    norm_num
    exact rustRem_eq_self 1 2 (by norm_num) (by norm_num) (by norm_num)
  simp only [HSV.rgb, conv_deg_deg, h1, h2, h3, xcVal]
  norm_num [h3, sectorTriple, clamp01, to_range]

/-- C10 (amended): `HSVColor::rgb` never reaches its panic branch at all:
for every rational hue (wrapped into `[0, 360)` by the hue conversion) the
sector index lies in `0..=5`, so `rgb` is total - on normalized inputs and
on every other input alike. -/
theorem hsv_rgb_total (h s v : ℚ) : (HSV.rgb ⟨h, s, v⟩).isSome = true := by
  unfold HSV.rgb
  rw [conv_deg_deg]
  obtain ⟨h1, h2⟩ := wrapDeg_bounds h
  have hdiv0 : 0 ≤ wrapDeg h / 60 := by positivity
  have hdiv6 : wrapDeg h / 60 < 6 := by
    rw [div_lt_iff₀ (by norm_num : (0:ℚ) < 60)]
    linarith
  have hfl : ⌊wrapDeg h / 60⌋ < 6 := by
    rw [Int.floor_lt]
    push_cast
    exact hdiv6
  have hk : u8cast (wrapDeg h / 60) ≤ 5 := by
    rw [u8cast, if_neg (not_lt.mpr hdiv0)]
    omega
  set k := u8cast (wrapDeg h / 60) with hkdef
  interval_cases k <;> simp [sectorTriple]

theorem wrapDeg_zero : wrapDeg 0 = 0 := wrapDeg_eq_self 0 le_rfl (by norm_num)

theorem wrapDeg_wrapDeg (x : ℚ) : wrapDeg (wrapDeg x) = wrapDeg x := by
  obtain ⟨h1, h2⟩ := wrapDeg_bounds x
  exact wrapDeg_eq_self _ h1 h2

/-- Evaluation of `HSVColor::rgb` once the sector index and the sector
triple are known. -/
theorem rgb_eval_sector (h s v A B C : ℚ) (k : ℕ)
    (hk : u8cast (wrapDeg h / 60) = k)
    (hsec : sectorTriple k (s * v) (xcVal (wrapDeg h / 60) (s * v)) =
      some (A, B, C)) :
    HSV.rgb ⟨h, s, v⟩ = some (clamp01 (A + (v - s * v)),
      clamp01 (B + (v - s * v)), clamp01 (C + (v - s * v))) := by
  unfold HSV.rgb
  rw [conv_deg_deg]
  rw [show (⟨h, s, v⟩ : HSV).h = h from rfl, show (⟨h, s, v⟩ : HSV).s = s from rfl,
    show (⟨h, s, v⟩ : HSV).v = v from rfl, hk, hsec]
  rfl

/-- Greys (zero saturation, zero hue) convert to equal RGB channels. -/
theorem rgb_grey (v : ℚ) (hv0 : 0 ≤ v) (hv1 : v ≤ 1) :
    HSV.rgb ⟨0, 0, v⟩ = some (v, v, v) := by
  have hk : u8cast (wrapDeg 0 / 60) = 0 := by
    rw [wrapDeg_zero]
    norm_num [u8cast]
  rw [rgb_eval_sector 0 0 v (0 * v) (xcVal (wrapDeg 0 / 60) (0 * v)) 0 0 hk rfl]
  have hc : clamp01 v = v := clamp01_eq_self v hv0 hv1
  norm_num [xcVal, hc]

theorem satFormula_bounds (r g b : ℚ) (hr0 : 0 ≤ r) (hg0 : 0 ≤ g) (hb0 : 0 ≤ b) :
    0 ≤ satFormula r g b ∧ satFormula r g b ≤ 1 := by
  unfold satFormula
  split_ifs with h
  · norm_num
  · have hmx0 : 0 ≤ maxRGB r g b :=
      le_trans hr0 (le_trans (le_max_left r g) (le_max_left _ b))
    have hmxp : 0 < maxRGB r g b := lt_of_le_of_ne hmx0 (Ne.symm h)
    have hmi0 : 0 ≤ minRGB r g b := le_min (le_min hr0 hg0) hb0
    have hmimx : minRGB r g b ≤ maxRGB r g b :=
      le_trans (le_trans (min_le_left _ b) (min_le_left r g))
        (le_trans (le_max_left r g) (le_max_left _ b))
    constructor
    · apply div_nonneg (by linarith) hmxp.le
    · rw [div_le_one hmxp]
      linarith

/-- Under in-range channels, `RGBColor::hsv` is `HSVColor::new` of the raw
hue, saturation and value formulas (the channel conversions reduce to the
hue wrap and to identities). -/
theorem rgb_hsv_eq (r g b : ℚ)
    (hr0 : 0 ≤ r) (hr1 : r ≤ 1) (hg0 : 0 ≤ g) (hg1 : g ≤ 1)
    (hb0 : 0 ≤ b) (hb1 : b ≤ 1) :
    RGB.hsv ⟨r, g, b⟩ =
      HSV.new (wrapDeg (hueFormula r g b)) (satFormula r g b) (maxRGB r g b) := by
  have hmx1 : maxRGB r g b ≤ 1 := max_le (max_le hr1 hg1) hb1
  have hmx0 : 0 ≤ maxRGB r g b :=
    le_trans hr0 (le_trans (le_max_left r g) (le_max_left _ b))
  obtain ⟨hs0, hs1⟩ := satFormula_bounds r g b hr0 hg0 hb0
  unfold RGB.hsv
  rw [show (⟨r, g, b⟩ : RGB).r = r from rfl, show (⟨r, g, b⟩ : RGB).g = g from rfl,
    show (⟨r, g, b⟩ : RGB).b = b from rfl]
  rw [conv_f32_f32 r, conv_f32_f32 g, conv_f32_f32 b,
    clamp01_eq_self r hr0 hr1, clamp01_eq_self g hg0 hg1,
    clamp01_eq_self b hb0 hb1, conv_deg_deg, conv_f32_f32, conv_f32_f32,
    clamp01_eq_self (satFormula r g b) hs0 hs1,
    clamp01_eq_self (maxRGB r g b) hmx0 hmx1]

/-- Normalization fixes an already wrapped and in-range non-degenerate HSV
color, also when applied twice through `HSVColor::new`. -/
theorem new_normalize_pos (h s v : ℚ) (hs0 : 0 < s) (hs1 : s ≤ 1)
    (hv0 : 0 < v) (hv1 : v ≤ 1) :
    (HSV.new (wrapDeg h) s v).normalize = ⟨wrapDeg h, s, v⟩ := by
  have h1 : HSV.normalize ⟨wrapDeg h, s, v⟩ = ⟨wrapDeg h, s, v⟩ := by
    simp only [HSV.normalize]
    rw [if_neg (ne_of_gt hv0), if_neg (ne_of_gt hs0), wrapDeg_wrapDeg,
      clamp01_eq_self s hs0.le hs1, clamp01_eq_self v hv0.le hv1]
  show HSV.normalize (HSV.normalize ⟨wrapDeg h, s, v⟩) = _
  rw [h1, h1]

/-- Final assembly step shared by all hue sectors of the round trip. -/
theorem finish_triple (A B C r g b S M m : ℚ)
    (hmc : S * M = M - m)
    (hA : A + m = r) (hB : B + m = g) (hC : C + m = b)
    (hr0 : 0 ≤ r) (hr1 : r ≤ 1) (hg0 : 0 ≤ g) (hg1 : g ≤ 1)
    (hb0 : 0 ≤ b) (hb1 : b ≤ 1) :
    (some (clamp01 (A + (M - S * M)), clamp01 (B + (M - S * M)),
      clamp01 (C + (M - S * M))) : Option (ℚ × ℚ × ℚ)) = some (r, g, b) := by
  have hm : M - S * M = m := by rw [hmc]; ring
  rw [hm, hA, hB, hC, clamp01_eq_self r hr0 hr1, clamp01_eq_self g hg0 hg1,
    clamp01_eq_self b hb0 hb1]

set_option maxHeartbeats 2000000 in
/-- Exact rational round trip: converting an in-range RGB triple to HSV,
normalizing, and converting back reproduces the triple exactly. -/
theorem hsv_roundtrip_exact (r g b : ℚ)
    (hr0 : 0 ≤ r) (hr1 : r ≤ 1) (hg0 : 0 ≤ g) (hg1 : g ≤ 1)
    (hb0 : 0 ≤ b) (hb1 : b ≤ 1) :
    HSV.rgb ((RGB.hsv ⟨r, g, b⟩).normalize) = some (r, g, b) := by
  rw [rgb_hsv_eq r g b hr0 hr1 hg0 hg1 hb0 hb1]
  have hrm : r ≤ maxRGB r g b := le_trans (le_max_left r g) (le_max_left _ b)
  have hgm : g ≤ maxRGB r g b := le_trans (le_max_right r g) (le_max_left _ b)
  have hbm : b ≤ maxRGB r g b := le_max_right _ b
  have hmir : minRGB r g b ≤ r := le_trans (min_le_left _ b) (min_le_left r g)
  have hmig : minRGB r g b ≤ g := le_trans (min_le_left _ b) (min_le_right r g)
  have hmib : minRGB r g b ≤ b := min_le_right _ b
  have hmx0 : 0 ≤ maxRGB r g b := le_trans hr0 hrm
  have hmx1 : maxRGB r g b ≤ 1 := max_le (max_le hr1 hg1) hb1
  have hmi0 : 0 ≤ minRGB r g b := le_min (le_min hr0 hg0) hb0
  by_cases hmxz : maxRGB r g b = 0
  · -- black: all channels are zero
    have hr' : r = 0 := le_antisymm (hmxz ▸ hrm) hr0
    have hg' : g = 0 := le_antisymm (hmxz ▸ hgm) hg0
    have hb' : b = 0 := le_antisymm (hmxz ▸ hbm) hb0
    subst hr'; subst hg'; subst hb'
    have hM : maxRGB 0 0 0 = 0 := by norm_num [maxRGB]
    have hsat : satFormula 0 0 0 = 0 := by
      unfold satFormula
      rw [if_pos hM]
    have hhue : hueFormula 0 0 0 = 0 := by
      norm_num [hueFormula, maxRGB, minRGB]
    rw [hsat, hhue, hM, wrapDeg_zero]
    have hB0 : HSV.normalize ⟨0, 0, 0⟩ = ⟨0, 0, 0⟩ := by
      simp [HSV.normalize]
    rw [show HSV.new 0 0 0 = HSV.normalize ⟨0, 0, 0⟩ from rfl, hB0, hB0]
    exact rgb_grey 0 le_rfl (by norm_num)
  · have hmxp : 0 < maxRGB r g b := lt_of_le_of_ne hmx0 (Ne.symm hmxz)
    by_cases hdz : maxRGB r g b - minRGB r g b = 0
    · -- grey: all channels equal the maximum
      have hmieq : minRGB r g b = maxRGB r g b := by linarith
      have hr' : r = maxRGB r g b := le_antisymm hrm (hmieq ▸ hmir)
      have hg' : g = maxRGB r g b := le_antisymm hgm (hmieq ▸ hmig)
      have hb' : b = maxRGB r g b := le_antisymm hbm (hmieq ▸ hmib)
      have hsat : satFormula r g b = 0 := by
        unfold satFormula
        rw [if_neg hmxz, hdz, zero_div]
      have hhue : hueFormula r g b = 0 := by
        unfold hueFormula
        rw [if_pos hdz]
        ring
      rw [hsat, hhue, wrapDeg_zero]
      have hB1 : HSV.normalize ⟨0, 0, maxRGB r g b⟩ = ⟨0, 0, maxRGB r g b⟩ := by
        simp only [HSV.normalize]
        rw [if_neg hmxz]
        simp [clamp01_eq_self (maxRGB r g b) hmx0 hmx1]
      rw [show HSV.new 0 0 (maxRGB r g b) =
        HSV.normalize ⟨0, 0, maxRGB r g b⟩ from rfl, hB1, hB1]
      rw [rgb_grey (maxRGB r g b) hmx0 hmx1]
      simp only [Option.some.injEq, Prod.mk.injEq]
      exact ⟨hr'.symm, hg'.symm, hb'.symm⟩
    · -- chromatic case
      have hdp : 0 < maxRGB r g b - minRGB r g b :=
        lt_of_le_of_ne (by linarith) (Ne.symm hdz)
      have hsatval : satFormula r g b =
          (maxRGB r g b - minRGB r g b) / maxRGB r g b := by
        unfold satFormula
        rw [if_neg hmxz]
      have hhueval : hueFormula r g b =
          60 * (if maxRGB r g b = r then
            rustRem ((g - b) / (maxRGB r g b - minRGB r g b)) 6
          else if maxRGB r g b = g then
            (b - r) / (maxRGB r g b - minRGB r g b) + 2
          else (r - g) / (maxRGB r g b - minRGB r g b) + 4) := by
        unfold hueFormula
        rw [if_neg hdz]
      rw [hsatval, hhueval]
      set M := maxRGB r g b with hMdef
      set m := minRGB r g b with hmdef
      have hSp : 0 < (M - m) / M := div_pos hdp hmxp
      have hS1 : (M - m) / M ≤ 1 := by
        rw [div_le_one hmxp]
        linarith
      rw [new_normalize_pos _ _ _ hSp hS1 hmxp hmx1]
      have hmc : (M - m) / M * M = M - m := div_mul_cancel₀ _ hmxz
      by_cases hxr : M = r
      · -- the red sector pair: the maximum channel is r
        rw [if_pos hxr]
        have htle : (g - b) / (M - m) ≤ 1 := by
          rw [div_le_one hdp]
          linarith
        have htge : -1 ≤ (g - b) / (M - m) := by
          rw [le_div_iff₀ hdp]
          linarith
        rw [rustRem_eq_self ((g - b) / (M - m)) 6 (by norm_num)
          (by linarith) (by linarith)]
        set t := (g - b) / (M - m) with htdef
        have hDt : (M - m) * t = g - b := by
          rw [htdef, mul_comm, div_mul_cancel₀ _ (ne_of_gt hdp)]
        rcases le_or_lt b g with hbg | hbg
        · have ht0 : 0 ≤ t := by
            rw [htdef]
            exact div_nonneg (by linarith) hdp.le
          rcases lt_or_eq_of_le htle with ht1 | ht1
          · -- sector 0
            have hmi : m = b := by
              rw [hmdef]
              unfold minRGB
              rw [min_eq_right (le_min (by linarith) hbg)]
            have hw : wrapDeg (60 * t) = 60 * t :=
              wrapDeg_eq_self _ (by linarith) (by linarith)
            have hdiv : 60 * t / 60 = t :=
              mul_div_cancel_left₀ t (by norm_num)
            rw [hw]
            have hk : u8cast (wrapDeg (60 * t) / 60) = 0 := by
              rw [hw, hdiv]
              exact u8cast_eq t 0 (by norm_num) (by push_cast; linarith)
                (by push_cast; linarith)
            rw [rgb_eval_sector (60 * t) ((M - m) / M) M ((M - m) / M * M)
              (xcVal (wrapDeg (60 * t) / 60) ((M - m) / M * M)) 0 0 hk rfl]
            have hxc : xcVal (wrapDeg (60 * t) / 60) ((M - m) / M * M) = g - b := by
              simp only [xcVal]
              rw [hw, hdiv, hmc,
                rustRem_eq_self t 2 (by norm_num) (by linarith) (by linarith),
                abs_of_nonpos (by linarith : t - 1 ≤ 0)]
              have he : (1 - -(t - 1)) = t := by ring
              rw [he, hDt]
            rw [hxc]
            exact finish_triple ((M - m) / M * M) (g - b) 0 r g b ((M - m) / M)
              M m hmc (by rw [hmc]; linarith) (by linarith) (by linarith)
              hr0 hr1 hg0 hg1 hb0 hb1
          · -- sector 1 (hue exactly 60): g is also maximal and b minimal
            have hgb : g - b = M - m := by rw [← hDt, ht1, mul_one]
            have hgM : g = M := by linarith
            have hbm' : b = m := by linarith
            have hw : wrapDeg (60 * t) = 60 * t :=
              wrapDeg_eq_self _ (by linarith) (by linarith)
            rw [hw]
            have hdiv : 60 * t / 60 = t := mul_div_cancel_left₀ t (by norm_num)
            have hk : u8cast (wrapDeg (60 * t) / 60) = 1 := by
              rw [hw, hdiv, ht1]
              exact u8cast_eq 1 1 (by norm_num) (by norm_num) (by norm_num)
            rw [rgb_eval_sector (60 * t) ((M - m) / M) M
              (xcVal (wrapDeg (60 * t) / 60) ((M - m) / M * M))
              ((M - m) / M * M) 0 1 hk rfl]
            have hxc : xcVal (wrapDeg (60 * t) / 60) ((M - m) / M * M)
                = M - m := by
              simp only [xcVal]
              rw [hw, hdiv, ht1, hmc,
                rustRem_eq_self 1 2 (by norm_num) (by norm_num) (by norm_num)]
              norm_num
            rw [hxc]
            exact finish_triple (M - m) ((M - m) / M * M) 0 r g b ((M - m) / M)
              M m hmc (by linarith) (by rw [hmc]; linarith) (by linarith)
              hr0 hr1 hg0 hg1 hb0 hb1
        · -- sector 5: g < b, negative hue wraps to [300, 360)
          have hmi : m = g := by
            rw [hmdef]
            unfold minRGB
            rw [min_eq_right (show g ≤ r by linarith), min_eq_left hbg.le]
          have htneg : t < 0 := by
            rw [htdef]
            exact div_neg_of_neg_of_pos (by linarith) hdp
          have hw : wrapDeg (60 * t) = 60 * t + 360 :=
            wrapDeg_neg_eq _ (by linarith) (by linarith)
          rw [hw]
          have hdiv : (60 * t + 360) / 60 = t + 6 := by
            rw [div_eq_iff (by norm_num : (60 : ℚ) ≠ 0)]
            ring
          have hw2 : wrapDeg (60 * t + 360) = 60 * t + 360 :=
            wrapDeg_eq_self _ (by linarith) (by linarith)
          have hk : u8cast (wrapDeg (60 * t + 360) / 60) = 5 := by
            rw [hw2, hdiv]
            exact u8cast_eq (t + 6) 5 (by norm_num) (by push_cast; linarith)
              (by push_cast; linarith)
          rw [rgb_eval_sector (60 * t + 360) ((M - m) / M) M ((M - m) / M * M) 0
            (xcVal (wrapDeg (60 * t + 360) / 60) ((M - m) / M * M)) 5 hk rfl]
          have hxc : xcVal (wrapDeg (60 * t + 360) / 60) ((M - m) / M * M)
              = b - g := by
            simp only [xcVal]
            rw [hw2, hdiv, hmc,
              rustRem_shift (t + 6) 2 2 (by norm_num) (by norm_num)
                (by push_cast; linarith) (by push_cast; linarith)]
            push_cast
            rw [abs_of_nonneg (by linarith)]
            linear_combination -hDt
          rw [hxc]
          exact finish_triple ((M - m) / M * M) 0 (b - g) r g b ((M - m) / M)
            M m hmc (by rw [hmc]; linarith) (by linarith) (by linarith)
            hr0 hr1 hg0 hg1 hb0 hb1
      · rw [if_neg hxr]
        have hrM : r < M := lt_of_le_of_ne hrm (fun hh => hxr hh.symm)
        by_cases hxg : M = g
        · -- the maximum channel is g
          rw [if_pos hxg]
          set u := (b - r) / (M - m) with hudef
          have hule : u ≤ 1 := by
            rw [hudef, div_le_one hdp]
            linarith
          have huge : -1 ≤ u := by
            rw [hudef, le_div_iff₀ hdp]
            linarith
          have hDu : (M - m) * u = b - r := by
            rw [hudef, mul_comm, div_mul_cancel₀ _ (ne_of_gt hdp)]
          have hw : wrapDeg (60 * (u + 2)) = 60 * (u + 2) :=
            wrapDeg_eq_self _ (by linarith) (by linarith)
          rw [hw]
          have hdiv : 60 * (u + 2) / 60 = u + 2 :=
            mul_div_cancel_left₀ _ (by norm_num)
          rcases le_or_lt r b with hrb | hrb
          · have hu0 : 0 ≤ u := by
              rw [hudef]
              exact div_nonneg (by linarith) hdp.le
            have hmi : m = r := by
              rw [hmdef]
              unfold minRGB
              rw [min_eq_left (show r ≤ g by linarith), min_eq_left hrb]
            rcases lt_or_eq_of_le hule with hu1 | hu1
            · -- sector 2
              have hk : u8cast (wrapDeg (60 * (u + 2)) / 60) = 2 := by
                rw [hw, hdiv]
                exact u8cast_eq (u + 2) 2 (by norm_num) (by push_cast; linarith)
                  (by push_cast; linarith)
              rw [rgb_eval_sector (60 * (u + 2)) ((M - m) / M) M 0
                ((M - m) / M * M)
                (xcVal (wrapDeg (60 * (u + 2)) / 60) ((M - m) / M * M)) 2 hk rfl]
              have hxc : xcVal (wrapDeg (60 * (u + 2)) / 60) ((M - m) / M * M)
                  = b - r := by
                simp only [xcVal]
                rw [hw, hdiv, hmc,
                  rustRem_shift (u + 2) 2 1 (by norm_num) (by norm_num)
                    (by push_cast; linarith) (by push_cast; linarith)]
                push_cast
                rw [abs_of_nonpos (by linarith)]
                linear_combination hDu
              rw [hxc]
              exact finish_triple 0 ((M - m) / M * M) (b - r) r g b
                ((M - m) / M) M m hmc (by linarith) (by rw [hmc]; linarith)
                (by linarith) hr0 hr1 hg0 hg1 hb0 hb1
            · -- sector 3 (hue exactly 180): b is also maximal and r minimal
              have hbr2 : b - r = M - m := by rw [← hDu, hu1, mul_one]
              have hbM : b = M := by linarith
              have hrm2 : r = m := by linarith
              have h3 : (1 : ℚ) + 2 = 3 := by norm_num
              have hk : u8cast (wrapDeg (60 * (u + 2)) / 60) = 3 := by
                rw [hw, hdiv, hu1, h3]
                exact u8cast_eq 3 3 (by norm_num) (by norm_num) (by norm_num)
              rw [rgb_eval_sector (60 * (u + 2)) ((M - m) / M) M 0
                (xcVal (wrapDeg (60 * (u + 2)) / 60) ((M - m) / M * M))
                ((M - m) / M * M) 3 hk rfl]
              have hxc : xcVal (wrapDeg (60 * (u + 2)) / 60) ((M - m) / M * M)
                  = M - m := by
                simp only [xcVal]
                rw [hw, hdiv, hu1, h3, hmc,
                  rustRem_shift 3 2 1 (by norm_num) (by norm_num) (by norm_num)
                    (by norm_num)]
                push_cast
                norm_num
              rw [hxc]
              exact finish_triple 0 (M - m) ((M - m) / M * M) r g b
                ((M - m) / M) M m hmc (by linarith) (by linarith)
                (by rw [hmc]; linarith) hr0 hr1 hg0 hg1 hb0 hb1
          · -- sector 1: b < r
            have hun : u < 0 := by
              rw [hudef]
              exact div_neg_of_neg_of_pos (by linarith) hdp
            have hmi : m = b := by
              rw [hmdef]
              unfold minRGB
              rw [min_eq_right (le_min hrb.le (show b ≤ g by linarith))]
            have hk : u8cast (wrapDeg (60 * (u + 2)) / 60) = 1 := by
              rw [hw, hdiv]
              exact u8cast_eq (u + 2) 1 (by norm_num) (by push_cast; linarith)
                (by push_cast; linarith)
            rw [rgb_eval_sector (60 * (u + 2)) ((M - m) / M) M
              (xcVal (wrapDeg (60 * (u + 2)) / 60) ((M - m) / M * M))
              ((M - m) / M * M) 0 1 hk rfl]
            have hxc : xcVal (wrapDeg (60 * (u + 2)) / 60) ((M - m) / M * M)
                = r - b := by
              simp only [xcVal]
              rw [hw, hdiv, hmc,
                rustRem_eq_self (u + 2) 2 (by norm_num) (by linarith)
                  (by linarith)]
              rw [abs_of_nonneg (by linarith)]
              linear_combination -hDu
            rw [hxc]
            exact finish_triple (r - b) ((M - m) / M * M) 0 r g b ((M - m) / M)
              M m hmc (by linarith) (by rw [hmc]; linarith) (by linarith)
              hr0 hr1 hg0 hg1 hb0 hb1
        · -- the maximum channel is b
          rw [if_neg hxg]
          have hgM : g < M := lt_of_le_of_ne hgm (fun hh => hxg hh.symm)
          have hbM : M = b := by
            rcases max_choice (max r g) b with hc | hc
            · exfalso
              rcases max_choice r g with hc2 | hc2
              · exact hxr (by rw [hMdef]; unfold maxRGB; rw [hc, hc2])
              · exact hxg (by rw [hMdef]; unfold maxRGB; rw [hc, hc2])
            · rw [hMdef]
              unfold maxRGB
              rw [hc]
          set w := (r - g) / (M - m) with hwdef
          have hwlt : w < 1 := by
            rw [hwdef, div_lt_one hdp]
            linarith
          have hwgt : -1 < w := by
            rw [hwdef, lt_div_iff₀ hdp]
            linarith
          have hDw : (M - m) * w = r - g := by
            rw [hwdef, mul_comm, div_mul_cancel₀ _ (ne_of_gt hdp)]
          have hw : wrapDeg (60 * (w + 4)) = 60 * (w + 4) :=
            wrapDeg_eq_self _ (by linarith) (by linarith)
          rw [hw]
          have hdiv : 60 * (w + 4) / 60 = w + 4 :=
            mul_div_cancel_left₀ _ (by norm_num)
          rcases lt_trichotomy r g with hrg | hrg | hrg
          · -- sector 3: r < g
            have hwn : w < 0 := by
              rw [hwdef]
              exact div_neg_of_neg_of_pos (by linarith) hdp
            have hmi : m = r := by
              rw [hmdef]
              unfold minRGB
              rw [min_eq_left hrg.le, min_eq_left (show r ≤ b by linarith)]
            have hk : u8cast (wrapDeg (60 * (w + 4)) / 60) = 3 := by
              rw [hw, hdiv]
              exact u8cast_eq (w + 4) 3 (by norm_num) (by push_cast; linarith)
                (by push_cast; linarith)
            rw [rgb_eval_sector (60 * (w + 4)) ((M - m) / M) M 0
              (xcVal (wrapDeg (60 * (w + 4)) / 60) ((M - m) / M * M))
              ((M - m) / M * M) 3 hk rfl]
            have hxc : xcVal (wrapDeg (60 * (w + 4)) / 60) ((M - m) / M * M)
                = g - r := by
              simp only [xcVal]
              rw [hw, hdiv, hmc,
                rustRem_shift (w + 4) 2 1 (by norm_num) (by norm_num)
                  (by push_cast; linarith) (by push_cast; linarith)]
              push_cast
              rw [abs_of_nonneg (by linarith)]
              linear_combination -hDw
            rw [hxc]
            exact finish_triple 0 (g - r) ((M - m) / M * M) r g b ((M - m) / M)
              M m hmc (by linarith) (by linarith) (by rw [hmc]; linarith)
              hr0 hr1 hg0 hg1 hb0 hb1
          · -- sector 4 with zero offset: r = g
            have hw0 : w = 0 := by
              rw [hwdef, hrg, sub_self, zero_div]
            have h4 : (0 : ℚ) + 4 = 4 := by norm_num
            have hmi : m = r := by
              rw [hmdef]
              unfold minRGB
              rw [min_eq_left (le_of_eq hrg), min_eq_left (show r ≤ b by linarith)]
            have hk : u8cast (wrapDeg (60 * (w + 4)) / 60) = 4 := by
              rw [hw, hdiv, hw0, h4]
              exact u8cast_eq 4 4 (by norm_num) (by norm_num) (by norm_num)
            rw [rgb_eval_sector (60 * (w + 4)) ((M - m) / M) M
              (xcVal (wrapDeg (60 * (w + 4)) / 60) ((M - m) / M * M)) 0
              ((M - m) / M * M) 4 hk rfl]
            have hxc : xcVal (wrapDeg (60 * (w + 4)) / 60) ((M - m) / M * M)
                = 0 := by
              simp only [xcVal]
              rw [hw, hdiv, hw0, h4,
                rustRem_shift 4 2 2 (by norm_num) (by norm_num) (by norm_num)
                  (by norm_num)]
              push_cast
              norm_num
            rw [hxc]
            exact finish_triple 0 0 ((M - m) / M * M) r g b ((M - m) / M)
              M m hmc (by linarith) (by linarith) (by rw [hmc]; linarith)
              hr0 hr1 hg0 hg1 hb0 hb1
          · -- sector 4: g < r
            have hwp : 0 < w := by
              rw [hwdef]
              exact div_pos (by linarith) hdp
            have hmi : m = g := by
              rw [hmdef]
              unfold minRGB
              rw [min_eq_right hrg.le, min_eq_left (show g ≤ b by linarith)]
            have hk : u8cast (wrapDeg (60 * (w + 4)) / 60) = 4 := by
              rw [hw, hdiv]
              exact u8cast_eq (w + 4) 4 (by norm_num) (by push_cast; linarith)
                (by push_cast; linarith)
            rw [rgb_eval_sector (60 * (w + 4)) ((M - m) / M) M
              (xcVal (wrapDeg (60 * (w + 4)) / 60) ((M - m) / M * M)) 0
              ((M - m) / M * M) 4 hk rfl]
            have hxc : xcVal (wrapDeg (60 * (w + 4)) / 60) ((M - m) / M * M)
                = r - g := by
              simp only [xcVal]
              rw [hw, hdiv, hmc,
                rustRem_shift (w + 4) 2 2 (by norm_num) (by norm_num)
                  (by push_cast; linarith) (by push_cast; linarith)]
              push_cast
              rw [abs_of_nonpos (by linarith)]
              linear_combination hDw
            rw [hxc]
            exact finish_triple (r - g) 0 ((M - m) / M * M) r g b ((M - m) / M)
              M m hmc (by linarith) (by linarith) (by rw [hmc]; linarith)
              hr0 hr1 hg0 hg1 hb0 hb1

/-- C1: for every valid 8-bit sRGB triple, converting to `f32` channels,
then to HSV, normalizing, converting back to RGB and quantizing to `u8`
reproduces the original triple - in the exact rational embedding the round
trip is the identity, so it holds within integer quantization a fortiori. -/
theorem srgb24_roundtrip_id (R G B : ℕ) (hR : R ≤ 255) (hG : G ≤ 255)
    (hB : B ≤ 255) :
    srgb24_roundtrip R G B = some ((R : ℚ), (G : ℚ), (B : ℚ)) := by
  have h255 : (0 : ℚ) < 255 := by norm_num
  have hcomp : ∀ n : ℕ, n ≤ 255 → conv f32Ch u8Ch ((n : ℚ) / 255) = (n : ℚ) := by
    intro n hn
    rw [conv_f32_u8, clamp01_eq_self _ (by positivity)
      (by rw [div_le_one h255]; exact_mod_cast hn),
      div_mul_cancel₀ _ (by norm_num : (255 : ℚ) ≠ 0)]
    have h1 : rustRound ((n : ℚ)) = (n : ℤ) := by
      rw [show ((n : ℚ)) = (((n : ℤ)) : ℚ) from by push_cast; ring]
      exact rustRound_intCast _
    rw [h1]
    push_cast
    ring
  have hb : ∀ n : ℕ, n ≤ 255 → (n : ℚ) / 255 ≤ 1 := by
    intro n hn
    rw [div_le_one h255]
    exact_mod_cast hn
  unfold srgb24_roundtrip
  rw [conv_u8_f32 R hR, conv_u8_f32 G hG, conv_u8_f32 B hB,
    hsv_roundtrip_exact ((R : ℚ) / 255) ((G : ℚ) / 255) ((B : ℚ) / 255)
      (by positivity) (hb R hR) (by positivity) (hb G hG)
      (by positivity) (hb B hB)]
  simp only [Option.map_some']
  rw [hcomp R hR, hcomp G hG, hcomp B hB]

/-- C1 witness: the round trip at the repository test color
`SRGB24Color::new(128, 255, 55)`. -/
theorem srgb24_roundtrip_id_witness :
    (128 ≤ 255 ∧ 255 ≤ 255 ∧ 55 ≤ 255) ∧
      srgb24_roundtrip 128 255 55 = some (128, 255, 55) := by
  have h := srgb24_roundtrip_id 128 255 55 (by norm_num) (by norm_num)
    (by norm_num)
  refine ⟨by norm_num, ?_⟩
  rw [h]
  norm_num

/-- C4: widening then narrowing between channels is the identity on the
clamped value. For an integer source channel of maximum `msrc` and an
integer target of maximum `Mtgt` with `msrc ∣ Mtgt` (the lossless widenings
`u8`/`u16`/`u32`/`u64`, whose maxima divide each other), and likewise for a
float target, the round trip reproduces `x.to_range() = x` for every
representable `x`; the intermediate scaled value stays within the target
range, so the scaling cannot overflow. -/
theorem conv_widen_roundtrip (msrc Mtgt : ℕ) (hm : 0 < msrc)
    (hM : 0 < Mtgt) (hdvd : msrc ∣ Mtgt) (x : ℕ) (hx : x ≤ msrc) :
    (conv (intCh Mtgt) (intCh msrc) (conv (intCh msrc) (intCh Mtgt) (x : ℚ))
        = to_range 0 msrc (x : ℚ) ∧
      conv f32Ch (intCh msrc) (conv (intCh msrc) f32Ch (x : ℚ))
        = to_range 0 msrc (x : ℚ)) ∧
    (0 ≤ conv (intCh msrc) (intCh Mtgt) (x : ℚ) ∧
      conv (intCh msrc) (intCh Mtgt) (x : ℚ) ≤ (Mtgt : ℚ)) := by
  obtain ⟨k, hk⟩ := hdvd
  have hkpos : 0 < k := by
    rcases Nat.eq_zero_or_pos k with h | h
    · subst h
      omega
    · exact h
  have hmQ : (0 : ℚ) < msrc := by exact_mod_cast hm
  have hxr : to_range 0 msrc (x : ℚ) = (x : ℚ) :=
    to_range_eq_self 0 msrc (x : ℚ) (by positivity) (by exact_mod_cast hx)
  have hMQ : (Mtgt : ℚ) = (msrc : ℚ) * (k : ℚ) := by
    rw [hk]
    push_cast
    ring
  have e1 : (x : ℚ) / msrc * Mtgt = ((x * k : ℕ) : ℚ) := by
    rw [hMQ]
    field_simp
    push_cast
    ring
  have hfwd : conv (intCh msrc) (intCh Mtgt) (x : ℚ) = ((x * k : ℕ) : ℚ) := by
    simp only [conv, intCh, Ch.clamp, if_neg, Bool.false_eq_true, if_false,
      if_true]
    rw [hxr, e1, show (((x * k : ℕ)) : ℚ) = (((x * k : ℕ) : ℤ) : ℚ) from by
      push_cast; ring, rustRound_intCast]
  have hxkM : ((x * k : ℕ) : ℚ) ≤ (Mtgt : ℚ) := by
    rw [hMQ]
    push_cast
    have : (x : ℚ) ≤ (msrc : ℚ) := by exact_mod_cast hx
    have hkQ : (0 : ℚ) ≤ (k : ℚ) := by positivity
    nlinarith
  refine ⟨⟨?_, ?_⟩, ?_⟩
  · rw [hfwd]
    simp only [conv, intCh, Ch.clamp, Bool.false_eq_true, if_false, if_true]
    rw [to_range_eq_self 0 Mtgt _ (by positivity) hxkM]
    have e2 : ((x * k : ℕ) : ℚ) / Mtgt * msrc = (x : ℚ) := by
      rw [hMQ]
      push_cast
      have hkQ : (0 : ℚ) < (k : ℚ) := by exact_mod_cast hkpos
      field_simp
      ring
    rw [e2, rustRound_natCast, hxr]
    push_cast
    ring
  · simp only [conv, intCh, f32Ch, Ch.clamp, Bool.false_eq_true, if_false,
      if_true]
    rw [hxr]
    have e3 : to_range 0 1 ((x : ℚ) / msrc * 1) / 1 * msrc = (x : ℚ) := by
      rw [mul_one, to_range_eq_self 0 1 _ (by positivity)
        (by rw [div_le_one hmQ]; exact_mod_cast hx)]
      field_simp
    rw [e3, rustRound_natCast]
    push_cast
    ring
  · rw [hfwd]
    exact ⟨by positivity, hxkM⟩

/-- C4 witness: widening `128` from `u8` to `u16` and back. -/
theorem conv_widen_roundtrip_witness :
    ((conv (intCh 65535) (intCh 255) (conv (intCh 255) (intCh 65535)
        ((128 : ℕ) : ℚ)) = to_range 0 255 ((128 : ℕ) : ℚ) ∧
      conv f32Ch (intCh 255) (conv (intCh 255) f32Ch ((128 : ℕ) : ℚ))
        = to_range 0 255 ((128 : ℕ) : ℚ)) ∧
    (0 ≤ conv (intCh 255) (intCh 65535) ((128 : ℕ) : ℚ) ∧
      conv (intCh 255) (intCh 65535) ((128 : ℕ) : ℚ) ≤ ((65535 : ℕ) : ℚ))) :=
  conv_widen_roundtrip 255 65535 (by norm_num) (by norm_num)
    (by norm_num) 128 (by norm_num)

/-- C6 counterexample: at `f = 1.0` the converted degree angle is exactly
`360`, which violates both `deg < 360` and `deg = (f*360) mod 360 = 0` -
the conversion clamps the input into `[0, 1]` and rescales, but never wraps
the result. -/
theorem conv_f32_deg_one_cex :
    conv f32Ch degCh 1 = 360 ∧ wrapAngle 360 ((1 : ℚ) * 360) = 0 := by
  constructor
  · simp only [conv, f32Ch, degCh, Ch.clamp, Bool.false_eq_true, if_false,
      if_true]
    norm_num [to_range]
  · have hr : rustRem 360 360 = 0 := by
      have h := rustRem_shift 360 360 1 (by norm_num) (by norm_num)
        (by norm_num) (by norm_num)
      norm_num at h
      exact h
    simp [wrapAngle, hr]

/-- C6 (amended): for `0 ≤ f < 1` the conversion to `Deg<f32>` yields
exactly `f * 360`, which lies in `[0, 360)` and equals `(f*360) mod 360`;
inputs outside `[0, 1]` are clamped first (so `f = 1` yields `360` and the
wrap-based modulus description fails there). -/
theorem conv_f32_deg_in_unit (f : ℚ) (h0 : 0 ≤ f) (h1 : f < 1) :
    conv f32Ch degCh f = f * 360 ∧ 0 ≤ f * 360 ∧ f * 360 < 360 ∧
      conv f32Ch degCh f = wrapAngle 360 (f * 360) := by
  have hc : conv f32Ch degCh f = f * 360 := by
    simp only [conv, f32Ch, degCh, Ch.clamp, Bool.false_eq_true, if_false,
      if_true]
    rw [to_range_eq_self 0 1 f h0 h1.le]
    norm_num
  refine ⟨hc, by positivity, by linarith, ?_⟩
  rw [hc, show wrapAngle 360 (f * 360) = wrapDeg (f * 360) from rfl,
    wrapDeg_eq_self _ (by positivity) (by linarith)]

/-- C6 witness: the amended theorem at `f = 1/2`. -/
theorem conv_f32_deg_in_unit_witness :
    conv f32Ch degCh (1/2) = (1/2 : ℚ) * 360 ∧ 0 ≤ (1/2 : ℚ) * 360 ∧
      (1/2 : ℚ) * 360 < 360 ∧
      conv f32Ch degCh (1/2) = wrapAngle 360 ((1/2 : ℚ) * 360) :=
  conv_f32_deg_in_unit (1/2) (by norm_num) (by norm_num)

/-- C5 counterexample: a NaN channel survives `to_range` unchanged (both
IEEE comparisons are false), so `RGBColor::new(NaN, 0, 0)` is not normal -
NaN is not clamped to a domain bound. -/
theorem rgb_new_nan_cex :
    RGBf.is_normal (RGBf.new F32.nan (F32.fin 0) (F32.fin 0)) = false := by
  decide

theorem to_range_in_range (x : F32) (hx : x ≠ F32.nan) :
    F32.in_range (F32.to_range x) = true := by
  cases x with
  | nan => exact absurd rfl hx
  | pinf => decide
  | ninf => decide
  | fin q =>
    by_cases h1 : (1 : ℚ) < q
    · have he : F32.to_range (F32.fin q) = F32.fin 1 := by
        simp [F32.to_range, F32.lt, h1]
      rw [he]
      decide
    · by_cases h2 : q < 0
      · have he : F32.to_range (F32.fin q) = F32.fin 0 := by
          simp [F32.to_range, F32.lt, h1, h2]
        rw [he]
        decide
      · have he : F32.to_range (F32.fin q) = F32.fin q := by
          simp [F32.to_range, F32.lt, h1, h2]
        rw [he]
        simp only [F32.in_range, F32.le, Bool.and_eq_true, decide_eq_true_eq]
        exact ⟨not_lt.mp h1, not_lt.mp h2⟩

/-- C5 (amended): for every input triple with no NaN channel - finite
values and infinities alike - the color built by `RGBColor::new` has all
channels in `[ch_zero, ch_max]`; and the concrete scenario of the spec holds:
`SRGBAColor::new((2.0, -10.0, -inf), inf)` normalizes to
`(1.0, 0.0, 0.0, 1.0)`. -/
theorem rgb_new_is_normal (r g b : F32) (hr : r ≠ F32.nan) (hg : g ≠ F32.nan)
    (hb : b ≠ F32.nan) :
    RGBf.is_normal (RGBf.new r g b) = true ∧
      AlphaRGBf.new (F32.fin 2) (F32.fin (-10)) F32.ninf F32.pinf =
        ⟨⟨F32.fin 1, F32.fin 0, F32.fin 0⟩, F32.fin 1⟩ := by
  constructor
  · simp only [RGBf.is_normal, RGBf.new, Bool.and_eq_true]
    exact ⟨⟨to_range_in_range r hr, to_range_in_range g hg⟩,
      to_range_in_range b hb⟩
  · decide

/-- C5 witness: the amended theorem at the concrete scenario inputs
`(2.0, -10.0, -inf)`. -/
theorem rgb_new_is_normal_witness :
    RGBf.is_normal (RGBf.new (F32.fin 2) (F32.fin (-10)) F32.ninf) = true ∧
      AlphaRGBf.new (F32.fin 2) (F32.fin (-10)) F32.ninf F32.pinf =
        ⟨⟨F32.fin 1, F32.fin 0, F32.fin 0⟩, F32.fin 1⟩ :=
  rgb_new_is_normal (F32.fin 2) (F32.fin (-10)) F32.ninf
    (by decide) (by decide) (by decide)

/-- C8 counterexample: the four-character string `"1234"` is not a
well-formed 3- or 6-hex-digit string, yet `from_hex` accepts it through the
3-character path (using only `"123"`) and returns `Some((0x11, 0x22,
0x33))` instead of `None`. -/
theorem from_hex_wrong_length_cex :
    from_hex [49, 50, 51, 52] = some (17, 34, 51) := by
  decide

theorem tripleOpt_isSome (o1 o2 o3 : Option ℕ) :
    (tripleOpt o1 o2 o3).isSome = true ↔
      o1.isSome = true ∧ o2.isSome = true ∧ o3.isSome = true := by
  rcases o1 with _ | x <;> rcases o2 with _ | y <;> rcases o3 with _ | z <;>
    simp [tripleOpt]

theorem asciiLower_eq_43 (b : ℕ) : asciiLower b = 43 ↔ b = 43 := by
  unfold asciiLower
  split_ifs with h <;> omega

theorem asciiLower_eq_45 (b : ℕ) : asciiLower b = 45 ↔ b = 45 := by
  unfold asciiLower
  split_ifs with h <;> omega

theorem hexDigitVal_lower_isSome (b : ℕ) :
    (hexDigitVal (asciiLower b)).isSome = true ↔ isHexDigit b := by
  unfold hexDigitVal asciiLower isHexDigit
  split_ifs with h h1 h2 h3 h1 h2 h3 <;> simp <;> omega

theorem hexDigitVal_lower_zero (b : ℕ) :
    hexDigitVal (asciiLower b) = some 0 ↔ b = 48 := by
  unfold hexDigitVal asciiLower
  split_ifs with h h1 h2 h3 h1 h2 h3 <;> simp <;> omega

theorem pair_isSome_iff (b1 b2 : ℕ) :
    (fromStrRadix16pair (asciiLower b1) (asciiLower b2)).isSome = true ↔
      chunkOk b1 b2 := by
  by_cases h43 : b1 = 43
  · subst h43
    have h0 : fromStrRadix16pair (asciiLower 43) (asciiLower b2) =
        hexDigitVal (asciiLower b2) := by
      unfold fromStrRadix16pair asciiLower
      norm_num
    rw [h0, hexDigitVal_lower_isSome]
    have hnot : ¬ isHexDigit 43 := by decide
    simp [chunkOk, hnot]
  · by_cases h45 : b1 = 45
    · subst h45
      have h0 : fromStrRadix16pair (asciiLower 45) (asciiLower b2) =
          match hexDigitVal (asciiLower b2) with
          | some 0 => some 0
          | _ => none := by
        unfold fromStrRadix16pair asciiLower
        norm_num
      rw [h0]
      have hnot : ¬ isHexDigit 45 := by decide
      constructor
      · intro hs
        rcases hv : hexDigitVal (asciiLower b2) with _ | d
        · rw [hv] at hs
          simp at hs
        · rcases d with _ | d
          · right; right
            exact ⟨rfl, (hexDigitVal_lower_zero b2).mp hv⟩
          · rw [hv] at hs
            simp at hs
      · intro hc
        rcases hc with ⟨h1, _⟩ | ⟨h1, _⟩ | ⟨_, h2⟩
        · exact absurd h1 hnot
        · norm_num at h1
        · rw [(hexDigitVal_lower_zero b2).mpr h2]
          simp
    · have hn43 : asciiLower b1 ≠ 43 := fun h => h43 ((asciiLower_eq_43 b1).mp h)
      have hn45 : asciiLower b1 ≠ 45 := fun h => h45 ((asciiLower_eq_45 b1).mp h)
      simp only [fromStrRadix16pair, if_neg hn43, if_neg hn45]
      have hck : chunkOk b1 b2 ↔ isHexDigit b1 ∧ isHexDigit b2 := by
        unfold chunkOk
        constructor
        · intro hc
          rcases hc with h | ⟨h1, _⟩ | ⟨h1, _⟩
          · exact h
          · exact absurd h1 h43
          · exact absurd h1 h45
        · intro h
          exact Or.inl h
      rw [hck, ← hexDigitVal_lower_isSome b1, ← hexDigitVal_lower_isSome b2]
      rcases hv1 : hexDigitVal (asciiLower b1) with _ | d1 <;>
        rcases hv2 : hexDigitVal (asciiLower b2) with _ | d2 <;>
          simp [Option.isSome]

theorem chunkOk_diag (a : ℕ) : chunkOk a a ↔ isHexDigit a := by
  constructor
  · intro hc
    rcases hc with ⟨h, _⟩ | ⟨h1, h2⟩ | ⟨h1, h2⟩
    · exact h
    · subst h1
      exact absurd h2 (by decide)
    · subst h1
      exact absurd h2 (by norm_num)
  · intro h
    exact Or.inl ⟨h, h⟩

/-- C8 (amended): `from_hex` returns `Some` exactly when the bytes it
examines parse: for inputs of byte length at least 6, when the first six
bytes form three chunks acceptable to the radix-16 `u8` parser (extra
characters are ignored, so over-long inputs are not rejected, and a chunk
may carry a leading sign); for length 3 to 5, when the first three bytes
are hex digits; `None` for anything shorter. -/
theorem from_hex_some_iff (bs : List ℕ) :
    (from_hex bs).isSome = true ↔ from_hexAccepts bs := by
  unfold from_hex from_hexAccepts
  by_cases hlen : 6 ≤ bs.length
  · rw [if_pos hlen, if_pos hlen]
    rcases bs with _ | ⟨a, _ | ⟨b, _ | ⟨c, _ | ⟨d, _ | ⟨e, _ | ⟨f, rest⟩⟩⟩⟩⟩⟩ <;>
      simp only [List.length_nil, List.length_cons] at hlen
    · omega
    · omega
    · omega
    · omega
    · omega
    · omega
    · show (tripleOpt (fromStrRadix16pair (asciiLower a) (asciiLower b))
          (fromStrRadix16pair (asciiLower c) (asciiLower d))
          (fromStrRadix16pair (asciiLower e) (asciiLower f))).isSome = true ↔
        chunkOk a b ∧ chunkOk c d ∧ chunkOk e f
      rw [tripleOpt_isSome, pair_isSome_iff, pair_isSome_iff, pair_isSome_iff]
  · rw [if_neg hlen, if_neg hlen]
    rcases bs with _ | ⟨a, _ | ⟨b, _ | ⟨c, rest⟩⟩⟩
    · show (none : Option (ℕ × ℕ × ℕ)).isSome = true ↔ False
      simp
    · show (none : Option (ℕ × ℕ × ℕ)).isSome = true ↔ False
      simp
    · show (none : Option (ℕ × ℕ × ℕ)).isSome = true ↔ False
      simp
    · show (tripleOpt (fromStrRadix16pair (asciiLower a) (asciiLower a))
          (fromStrRadix16pair (asciiLower b) (asciiLower b))
          (fromStrRadix16pair (asciiLower c) (asciiLower c))).isSome = true ↔
        isHexDigit a ∧ isHexDigit b ∧ isHexDigit c
      rw [tripleOpt_isSome, pair_isSome_iff, pair_isSome_iff, pair_isSome_iff,
        chunkOk_diag, chunkOk_diag, chunkOk_diag]

/-- C9: at hue 330 degrees (distance 30 across the wrap) with full
saturation, the code pushes a red weight of `1 - (330 - 360)/45 = 5/3`,
which exceeds 1 and is not the claimed `1 - 30/45 = 1/3` - the sign of the
wrapped distance is flipped, inverting the red falloff. -/
theorem shades_red_wrap_overweight :
    shadesHuePart 330 1 = [(BaseColor.red, 5/3), (BaseColor.magenta, 1/3)] ∧
      ¬ ((5/3 : ℚ) ≤ 1) ∧ (1 : ℚ) - (360 - 330) / HUE_MARGIN = 1/3 := by
  refine ⟨?_, by norm_num, by norm_num [HUE_MARGIN]⟩
  have e1 : |(330 : ℚ) - 60| = 270 := by
    rw [show (330 : ℚ) - 60 = 270 by norm_num, abs_of_nonneg (by norm_num)]
  have e2 : |(330 : ℚ) - 120| = 210 := by
    rw [show (330 : ℚ) - 120 = 210 by norm_num, abs_of_nonneg (by norm_num)]
  have e3 : |(330 : ℚ) - 180| = 150 := by
    rw [show (330 : ℚ) - 180 = 150 by norm_num, abs_of_nonneg (by norm_num)]
  have e4 : |(330 : ℚ) - 240| = 90 := by
    rw [show (330 : ℚ) - 240 = 90 by norm_num, abs_of_nonneg (by norm_num)]
  have e5 : |(330 : ℚ) - 300| = 30 := by
    rw [show (330 : ℚ) - 300 = 30 by norm_num, abs_of_nonneg (by norm_num)]
  simp only [shadesHuePart, COLOR_HUES, HUE_MARGIN, GREYSCALE_SATURATION,
    List.filterMap_cons, List.filterMap_nil, e1, e2, e3, e4, e5]
  norm_num

end Colliberator
